import Mathlib

/-!
Shallow embedding of the asynchronous log-appender pipeline of the
maidsafe-utilities crate (modules src/log/async_log.rs and src/async_log.rs,
the two bundled revisions of the same component; plus the file-opening and
configuration-parsing code they call).

Bytes are modelled as natural numbers (the values that occur are below 256),
byte buffers as lists of naturals, and strings as lists of characters.
-/

set_option maxHeartbeats 1000000

/-! ### The path-shortening rewrite performed by the worker thread

The worker in AsyncAppender::new compiles the regular expression
"#FS#?.*[/\\#]([^#]+)#FE#" and, for every UTF-8 message, replaces the first
match of that expression by the text of capture group 1.  The functions below
embed exactly that regular expression, with the leftmost-first match semantics
of the Rust regex crate: the match starts at the leftmost possible position,
the optional "#" is preferred present, the greedy ".*" (which does not match
a newline) is preferred as long as possible, and "[^#]+" is greedy.  The
replacement is modelled as literal insertion of the captured text (the source
feeds the captured text back through re.replace, which would additionally
expand dollar references occurring inside the capture; the theorems below are
therefore stated for captures free of the dollar character). -/

/-- Decides whether a character can stand at the character class "[/\\#]"
of the worker regex. -/
def sepChar (c : Char) : Bool :=
  c == '/' || c == '\\' || c == '#'

/-- Bool test for membership in the character class "[^#]". -/
def notHash (d : Char) : Bool :=
  d != '#'

/-- Matches the tail ".*[/\\#]([^#]+)#FE#" of the worker regex against a
character list, with greedy ".*" (no newline) and greedy "[^#]+".  Returns
the text of capture group 1 together with the characters remaining after the
match, or none when no match exists. -/
def matchTail : List Char → Option (List Char × List Char)
  | [] => none
  | c :: rest =>
    match (if c = '\n' then none else matchTail rest) with
    | some r => some r
    | none =>
      if sepChar c then
        let ds := rest.takeWhile notHash
        if ds.isEmpty then none
        else if (rest.drop ds.length).take 4 = ['#', 'F', 'E', '#'] then
          some (ds, (rest.drop ds.length).drop 4)
        else none
      else none

/-- Matches "#?.*[/\\#]([^#]+)#FE#", the part of the worker regex after the
literal "#FS", preferring (greedy "?") to consume a literal "#" first. -/
def matchAfterFS : List Char → Option (List Char × List Char)
  | '#' :: rest =>
    match matchTail rest with
    | some r => some r
    | none => matchTail ('#' :: rest)
  | r => matchTail r

/-- Finds the leftmost match of the full worker regex "#FS#?.*[/\\#]([^#]+)#FE#"
in a character list.  Returns (text before the match, capture group 1, text
after the match), or none when the expression does not match. -/
def reMatch : List Char → Option (List Char × List Char × List Char)
  | [] => none
  | c :: rest =>
    if (c :: rest).take 3 = ['#', 'F', 'S'] then
      match matchAfterFS (rest.drop 2) with
      | some (cap, post) => some ([], cap, post)
      | none =>
        match reMatch rest with
        | some (pre, cap, post) => some (c :: pre, cap, post)
        | none => none
    else
      match reMatch rest with
      | some (pre, cap, post) => some (c :: pre, cap, post)
      | none => none

/-- The post-processing the worker applies to a decoded message: if the regex
matches, the first match is replaced by capture group 1 (the final path
component); otherwise the message is left unchanged.  This mirrors the
captures-then-replace sequence in AsyncAppender::new. -/
def processMsg (s : List Char) : List Char :=
  match reMatch s with
  | some (pre, cap, post) => pre ++ cap ++ post
  | none => s

/-! ### UTF-8, as enforced by String::from_utf8

The worker writes a message only when String::from_utf8 succeeds on its
byte buffer.  utf8Decode embeds that validity check and the decoding:
continuation bytes must lie in [128, 192), overlong encodings, surrogate
code points and values above 0x10FFFF are rejected. -/

/-- Decodes a byte list as UTF-8, returning none exactly when the bytes are
not a valid UTF-8 encoding (the failure case of String::from_utf8). -/
def utf8Decode : List Nat → Option (List Char)
  | [] => some []
  | b :: rest =>
    if b < 128 then
      (utf8Decode rest).map (fun cs => Char.ofNat b :: cs)
    else if b < 194 then
      none
    else if b < 224 then
      match rest with
      | b1 :: rest1 =>
        if 128 ≤ b1 ∧ b1 < 192 then
          (utf8Decode rest1).map
            (fun cs => Char.ofNat ((b - 192) * 64 + (b1 - 128)) :: cs)
        else none
      | [] => none
    else if b < 240 then
      match rest with
      | b1 :: b2 :: rest2 =>
        if (128 ≤ b1 ∧ b1 < 192) ∧ (128 ≤ b2 ∧ b2 < 192) ∧
            (b = 224 → 160 ≤ b1) ∧ (b = 237 → b1 < 160) then
          (utf8Decode rest2).map
            (fun cs =>
              Char.ofNat ((b - 224) * 4096 + (b1 - 128) * 64 + (b2 - 128)) :: cs)
        else none
      | _ => none
    else if b < 245 then
      match rest with
      | b1 :: b2 :: b3 :: rest3 =>
        if (128 ≤ b1 ∧ b1 < 192) ∧ (128 ≤ b2 ∧ b2 < 192) ∧
            (128 ≤ b3 ∧ b3 < 192) ∧ (b = 240 → 144 ≤ b1) ∧ (b = 244 → b1 < 144) then
          (utf8Decode rest3).map
            (fun cs =>
              Char.ofNat ((b - 240) * 262144 + (b1 - 128) * 4096 +
                (b2 - 128) * 64 + (b3 - 128)) :: cs)
        else none
      | _ => none
    else
      none

/-- Encodes one character as UTF-8 bytes (String::into_bytes on one char). -/
def utf8EncodeChar (c : Char) : List Nat :=
  let n := c.toNat
  if n < 128 then [n]
  else if n < 2048 then [192 + n / 64, 128 + n % 64]
  else if n < 65536 then [224 + n / 4096, 128 + (n / 64) % 64, 128 + n % 64]
  else [240 + n / 262144, 128 + (n / 4096) % 64, 128 + (n / 64) % 64, 128 + n % 64]

/-- Encodes a character list as UTF-8 bytes (String::into_bytes). -/
def utf8Encode (cs : List Char) : List Nat :=
  (cs.map utf8EncodeChar).flatten

/-! ### The AsyncAppender worker loop

AsyncAppender::new spawns one worker thread that receives AsyncEvent values
from the single mpsc channel of the appender, in first-in-first-out order.
On Log(msg) it attempts String::from_utf8; on success it applies the regex
rewrite, re-encodes the text and calls the sync_write of the Transport,
discarding the result; a buffer that is not valid UTF-8 produces no write.
On Terminate it breaks out of the loop (without draining later events), which
makes the thread joinable.  The worker is modelled as a function from the
FIFO list of channel events to the list of buffers passed to sync_write plus
a flag recording whether the loop was ended by a Terminate event. -/

/-- The message protocol of the appender channel: a formatted byte buffer or
the shutdown sentinel. -/
inductive AsyncEvent
  | log (msg : List Nat)
  | terminate

/-- What the worker makes of one Log payload: none when String::from_utf8
fails (the buffer is skipped), otherwise the bytes passed to sync_write
(the rewritten text, re-encoded). -/
def procMsg (msg : List Nat) : Option (List Nat) :=
  (utf8Decode msg).map (fun cs => utf8Encode (processMsg cs))

/-- The worker loop over a FIFO list of channel events: first component is
the ordered list of buffers passed to sync_write, second component is true
exactly when the loop was ended by a Terminate event. -/
def workerRun : List AsyncEvent → List (List Nat) × Bool
  | [] => ([], false)
  | AsyncEvent.log m :: rest =>
    match procMsg m with
    | some out =>
      let r := workerRun rest
      (out :: r.1, r.2)
    | none => workerRun rest
  | AsyncEvent.terminate :: _ => ([], true)

/-- The ordered list of buffers the worker passes to sync_write. -/
def workerWrites (events : List AsyncEvent) : List (List Nat) :=
  (workerRun events).1

/-- The worker loop run against a Transport whose sync_write may fail: fail
gives the outcome of each attempted write (true = the write returns an I/O
error).  The trace records every sync_write call with its outcome; the
source discards that outcome (the binding of the call result to _), so the
loop continues either way. -/
def workerRunFallible (fail : List Nat → Bool) :
    List AsyncEvent → List (List Nat × Bool) × Bool
  | [] => ([], false)
  | AsyncEvent.log m :: rest =>
    match procMsg m with
    | some out =>
      let res := fail out
      let r := workerRunFallible fail rest
      ((out, res) :: r.1, r.2)
    | none => workerRunFallible fail rest
  | AsyncEvent.terminate :: _ => ([], true)

/-! ### The TCP transport and its wire format -/

/-- Message terminator for streaming to log servers, from the MSG_TERMINATOR
constant: the 3-byte sequence appended after every message on a TCP stream. -/
def MSG_TERMINATOR : List Nat := [254, 253, 255]

/-- The impl SyncWrite for TcpStream: write_all of the payload followed by
write_all of MSG_TERMINATOR, hence this contribution to the byte stream. -/
def tcpSyncWrite (msg : List Nat) : List Nat :=
  msg ++ MSG_TERMINATOR

/-- The byte stream a sequence of tcpSyncWrite calls produces on the socket. -/
def tcpStreamBytes (msgs : List (List Nat)) : List Nat :=
  (msgs.map tcpSyncWrite).flatten

/-- The receiver prescribed by the spec: scan the byte stream for the exact
3-byte terminator sequence; each occurrence ends one message.  Returns the
delimited messages in order plus the leftover bytes after the last
terminator.  Scanning the whole concatenated stream makes the result
independent of how the stream was fragmented into reads. -/
def splitStream : List Nat → List (List Nat) × List Nat
  | [] => ([], [])
  | b :: rest =>
    if (b :: rest).take 3 = MSG_TERMINATOR then
      let r := splitStream (rest.drop 2)
      ([] :: r.1, r.2)
    else
      match splitStream rest with
      | (m :: ms, l) => ((b :: m) :: ms, l)
      | ([], l) => ([], b :: l)
termination_by l => l.length
decreasing_by
  · simp only [List.length_cons, List.length_drop]
    omega
  · simp only [List.length_cons]
    omega

/-! ### The append entry point

Append::append for AsyncAppender encodes the record through the boxed
Encoder into a fresh byte buffer, propagating an encoder error with the
question-mark operator, and then sends AsyncEvent::Log(buffer) over the
channel, propagating a send error (the channel is closed exactly when the
worker has already gone).  The record type and the encoder are parameters;
the channel is modelled by whether it is still open.  On success the value
carried by the returned ok is the buffer that was sent. -/

/-- The two failure shapes of append: the Encoder returned an error, or the
channel send failed because the worker was gone. -/
inductive AppendError
  | encodeFailed (e : String)
  | channelClosed
deriving DecidableEq

/-- Model of Append::append for AsyncAppender. -/
def appendRecord {α : Type} (encode : α → Except String (List Nat))
    (channelOpen : Bool) (record : α) : Except AppendError (List Nat) :=
  match encode record with
  | Except.error e => Except.error (AppendError.encodeFailed e)
  | Except.ok msg =>
    if channelOpen then Except.ok msg
    else Except.error AppendError.channelClosed

/-! ### File opening in AsyncFileAppenderBuilder::build

The two revisions build their std::fs::OpenOptions differently.  The newer
revision (src/log/async_log.rs) opens with write+append+create when the
append flag is set and with write+truncate+create otherwise; the older
revision (src/async_log.rs) always opens with write+create and passes the
flag straight to append.  OpenOptions is embedded with the same chainable
methods, and open is given the prior content of the target file (none when
the file does not yet exist; create makes an empty file then). -/

/-- The subset of std::fs::OpenOptions the builders use. -/
structure OpenOptions where
  writeFlag : Bool
  appendFlag : Bool
  truncateFlag : Bool
  createFlag : Bool

/-- OpenOptions::new(): all flags false. -/
def OpenOptions.new : OpenOptions :=
  ⟨false, false, false, false⟩

/-- OpenOptions::write. -/
def OpenOptions.write (o : OpenOptions) (b : Bool) : OpenOptions :=
  { o with writeFlag := b }

/-- OpenOptions::append. -/
def OpenOptions.append (o : OpenOptions) (b : Bool) : OpenOptions :=
  { o with appendFlag := b }

/-- OpenOptions::truncate. -/
def OpenOptions.truncate (o : OpenOptions) (b : Bool) : OpenOptions :=
  { o with truncateFlag := b }

/-- OpenOptions::create. -/
def OpenOptions.create (o : OpenOptions) (b : Bool) : OpenOptions :=
  { o with createFlag := b }

/-- An open file: its content, the write position, and whether every write
goes to the end (append mode). -/
structure FileState where
  content : List Nat
  pos : Nat
  appendMode : Bool

/-- OpenOptions::open on a file whose prior content is old (none = the file
does not exist; with the create flag it is then created empty).  Truncate
clears the content; otherwise the content is kept and the position starts
at the beginning. -/
def OpenOptions.open (o : OpenOptions) (old : Option (List Nat)) : FileState :=
  let base := match old with
    | none => []
    | some c => c
  { content := if o.truncateFlag then [] else base
    pos := 0
    appendMode := o.appendFlag }

/-- Write::write_all on an open file: in append mode the bytes go to the end;
otherwise they overwrite the content at the current position, which then
advances. -/
def fileWrite (f : FileState) (buf : List Nat) : FileState :=
  if f.appendMode then
    { f with content := f.content ++ buf }
  else
    { content := f.content.take f.pos ++ buf ++ f.content.drop (f.pos + buf.length)
      pos := f.pos + buf.length
      appendMode := false }

/-- AsyncFileAppenderBuilder::build of src/log/async_log.rs: append flag set
gives write+append+create, append flag unset gives write+truncate+create. -/
def buildFileNew (app : Bool) (old : Option (List Nat)) : FileState :=
  if app then
    ((((OpenOptions.new).write true).append true).create true).open old
  else
    ((((OpenOptions.new).write true).truncate true).create true).open old

/-- AsyncFileAppenderBuilder::build of src/async_log.rs: always
write+create, with the append flag passed through unchanged. -/
def buildFileOld (app : Bool) (old : Option (List Nat)) : FileState :=
  ((((OpenOptions.new).write true).append app).create true).open old

/-! ### The append key of the config-driven file-appender creators

Both creators take the result of removing the "append" key from the
configuration map: a boolean value is accepted, any other present value is a
ConfigError, and an absent key falls back to a default.  The newer revision
(AsyncFileAppenderCreator::deserialize in src/log/async_log.rs) falls back
to false, the older one (create_appender in src/async_log.rs) to true. -/

/-- The shape of an untyped configuration value, as far as the append key
parsing inspects it: a boolean, or anything else. -/
inductive CfgValue
  | bool (b : Bool)
  | str (s : String)
  | other
deriving DecidableEq

/-- The append key handling of the newer revision, src/log/async_log.rs:
absent means false. -/
def parseAppendNew (v : Option CfgValue) : Except String Bool :=
  match v with
  | some (CfgValue.bool b) => Except.ok b
  | some _ => Except.error ("`append` must be a bool")
  | none => Except.ok false

/-- The append key handling of the older revision, src/async_log.rs:
absent means true. -/
def parseAppendOld (v : Option CfgValue) : Except String Bool :=
  match v with
  | some (CfgValue.bool b) => Except.ok b
  | some _ => Except.error ("`append` must be a bool")
  | none => Except.ok true

/-! ### Helper lemmas about the regex model -/

theorem takeWhile_notHash_self {l : List Char} (h : '#' ∉ l) :
    l.takeWhile notHash = l := by
  induction l with
  | nil => rfl
  | cons c t ih =>
    have hc : c ≠ '#' := fun e => h (by simp [e])
    have hpc : notHash c = true := by
      simp [notHash, bne_iff_ne, hc]
    rw [List.takeWhile_cons, hpc]
    simp [ih (fun hm => h (List.mem_cons_of_mem _ hm))]

theorem takeWhile_notHash_append {xs : List Char} (t : List Char) (h : '#' ∉ xs) :
    (xs ++ '#' :: t).takeWhile notHash = xs := by
  induction xs with
  | nil => simp [List.takeWhile_cons, notHash]
  | cons c cs ih =>
    have hc : c ≠ '#' := fun e => h (by simp [e])
    have hpc : notHash c = true := by
      simp [notHash, bne_iff_ne, hc]
    rw [List.cons_append, List.takeWhile_cons, hpc]
    simp [ih (fun hm => h (List.mem_cons_of_mem _ hm))]

theorem matchTail_cons_none (c : Char) {t : List Char} (hnot : '#' ∉ t)
    (ht : matchTail t = none) : matchTail (c :: t) = none := by
  have hscrut : (if c = '\n' then none else matchTail t) =
      (none : Option (List Char × List Char)) := by
    by_cases h : c = '\n' <;> simp [h, ht]
  simp only [matchTail, hscrut]
  by_cases hsep : sepChar c
  · simp only [hsep, if_true, takeWhile_notHash_self hnot]
    cases t with
    | nil => simp
    | cons d ts => simp [List.drop_length]
  · simp [hsep]

theorem matchTail_no_hash {l : List Char} (h : '#' ∉ l) : matchTail l = none := by
  induction l with
  | nil => rfl
  | cons c t ih =>
    have hnot : '#' ∉ t := fun hm => h (List.mem_cons_of_mem _ hm)
    exact matchTail_cons_none c hnot (ih hnot)


theorem matchTail_cons_nonsep {t : List Char} (c : Char) (hsep : sepChar c = false)
    (ht : matchTail t = none) : matchTail (c :: t) = none := by
  have hscrut : (if c = '\n' then none else matchTail t) =
      (none : Option (List Char × List Char)) := by
    by_cases h : c = '\n' <;> simp [h, ht]
  simp [matchTail, hscrut, hsep]

theorem sepChar_false {d : Char} (h1 : d ≠ '/') (h2 : d ≠ '\\') (h3 : d ≠ '#') :
    sepChar d = false := by
  simp [sepChar, h1, h2, h3]

theorem matchTail_cons_eq (c : Char) (rest : List Char) :
    matchTail (c :: rest) =
      match (if c = '\n' then none else matchTail rest) with
      | some r => some r
      | none =>
        if sepChar c then
          if (rest.takeWhile notHash).isEmpty then none
          else if (rest.drop (rest.takeWhile notHash).length).take 4 =
              ['#', 'F', 'E', '#'] then
            some (rest.takeWhile notHash, (rest.drop (rest.takeWhile notHash).length).drop 4)
          else none
        else none := rfl

theorem matchTail_cons_of_scrut_none {c : Char} {rest : List Char}
    (h : (if c = '\n' then none else matchTail rest) =
      (none : Option (List Char × List Char))) :
    matchTail (c :: rest) =
      (if sepChar c then
        if (rest.takeWhile notHash).isEmpty then none
        else if (rest.drop (rest.takeWhile notHash).length).take 4 =
            ['#', 'F', 'E', '#'] then
          some (rest.takeWhile notHash, (rest.drop (rest.takeWhile notHash).length).drop 4)
        else none
      else none) := by
  rw [matchTail_cons_eq, h]

theorem matchTail_cons_of_scrut_some {c : Char} {rest : List Char}
    {r : List Char × List Char} (hc : c ≠ '\n') (h : matchTail rest = some r) :
    matchTail (c :: rest) = some r := by
  rw [matchTail_cons_eq, if_neg hc, h]

theorem matchTail_fe4 {post : List Char} (hp : '#' ∉ post) :
    matchTail ('#' :: 'F' :: 'E' :: '#' :: post) = none := by
  have h1 : matchTail ('#' :: post) = none :=
    matchTail_cons_none '#' hp (matchTail_no_hash hp)
  have h2 : matchTail ('E' :: '#' :: post) = none :=
    matchTail_cons_nonsep 'E' (by decide) h1
  have h3 : matchTail ('F' :: 'E' :: '#' :: post) = none :=
    matchTail_cons_nonsep 'F' (by decide) h2
  have hds : ('F' :: 'E' :: '#' :: post).takeWhile notHash = ['F', 'E'] := by
    have := @takeWhile_notHash_append ['F', 'E'] post (by decide)
    simpa using this
  have hcond : post.take 3 ≠ ['F', 'E', '#'] := by
    intro e
    have hmem : '#' ∈ post :=
      List.take_subset 3 post (e ▸ (by simp : '#' ∈ ['F', 'E', '#']))
    exact hp hmem
  rw [matchTail_cons_of_scrut_none (by simp [h3])]
  simp only [hds]
  simp [sepChar, hcond]

theorem matchTail_name_fe {name post : List Char}
    (hn1 : '#' ∉ name) (hn2 : '/' ∉ name) (hn3 : '\\' ∉ name)
    (hp : '#' ∉ post) :
    matchTail (name ++ '#' :: 'F' :: 'E' :: '#' :: post) = none := by
  induction name with
  | nil => simpa using matchTail_fe4 hp
  | cons d ds ih =>
    have hd : sepChar d = false :=
      sepChar_false (fun e => hn2 (by simp [e])) (fun e => hn3 (by simp [e]))
        (fun e => hn1 (by simp [e]))
    have iht := ih (fun hm => hn1 (List.mem_cons_of_mem _ hm))
      (fun hm => hn2 (List.mem_cons_of_mem _ hm))
      (fun hm => hn3 (List.mem_cons_of_mem _ hm))
    simpa using matchTail_cons_nonsep d hd iht

theorem matchTail_main {xs name post : List Char} {sep : Char}
    (hsep : sepChar sep = true)
    (hx1 : '#' ∉ xs) (hx2 : '\n' ∉ xs)
    (hne : name ≠ []) (hn1 : '#' ∉ name) (hn2 : '/' ∉ name) (hn3 : '\\' ∉ name)
    (hp : '#' ∉ post) :
    matchTail (xs ++ sep :: (name ++ '#' :: 'F' :: 'E' :: '#' :: post)) =
      some (name, post) := by
  induction xs with
  | nil =>
    have hrest : matchTail (name ++ '#' :: 'F' :: 'E' :: '#' :: post) = none :=
      matchTail_name_fe hn1 hn2 hn3 hp
    rw [List.nil_append,
      matchTail_cons_of_scrut_none (by by_cases h : sep = '\n' <;> simp [h, hrest]),
      takeWhile_notHash_append _ hn1]
    have hemp : name.isEmpty = false := by
      cases name with
      | nil => exact absurd rfl hne
      | cons a l => rfl
    rw [List.drop_left]
    simp [hsep, hemp]
  | cons c xs' ih =>
    have hc : c ≠ '\n' := fun e => hx2 (by simp [e])
    have ihh := ih (fun hm => hx1 (List.mem_cons_of_mem _ hm))
      (fun hm => hx2 (List.mem_cons_of_mem _ hm))
    rw [List.cons_append]
    exact matchTail_cons_of_scrut_some hc ihh

theorem matchAfterFS_hash {rest : List Char} {r : List Char × List Char}
    (h : matchTail rest = some r) : matchAfterFS ('#' :: rest) = some r := by
  simp [matchAfterFS, h]

theorem reMatch_cons_eq (c : Char) (rest : List Char) :
    reMatch (c :: rest) =
      (if (c :: rest).take 3 = ['#', 'F', 'S'] then
        match matchAfterFS (rest.drop 2) with
        | some (cap, post) => some ([], cap, post)
        | none =>
          match reMatch rest with
          | some (pre, cap, post) => some (c :: pre, cap, post)
          | none => none
      else
        match reMatch rest with
        | some (pre, cap, post) => some (c :: pre, cap, post)
        | none => none) := rfl

theorem take3_ne_hfs {c : Char} {l : List Char} (hc : c ≠ '#') :
    (c :: l).take 3 ≠ ['#', 'F', 'S'] := by
  cases l with
  | nil => simp
  | cons x l' =>
    cases l' with
    | nil => simp
    | cons y t =>
      intro e
      simp at e
      exact hc e.1

theorem reMatch_none {s : List Char} (h : '#' ∉ s) : reMatch s = none := by
  induction s with
  | nil => rfl
  | cons c rest ih =>
    have hc : c ≠ '#' := fun e => h (by simp [e])
    rw [reMatch_cons_eq, if_neg (take3_ne_hfs hc),
      ih (fun hm => h (List.mem_cons_of_mem _ hm))]

theorem reMatch_build {pre dir name post : List Char} {sep : Char}
    (hsep : sepChar sep = true) (hpre : '#' ∉ pre)
    (hdir1 : '#' ∉ dir) (hdir2 : '\n' ∉ dir)
    (hne : name ≠ []) (hn1 : '#' ∉ name) (hn2 : '/' ∉ name) (hn3 : '\\' ∉ name)
    (hp : '#' ∉ post) :
    reMatch (pre ++ '#' :: 'F' :: 'S' :: '#' ::
        (dir ++ sep :: (name ++ '#' :: 'F' :: 'E' :: '#' :: post))) =
      some (pre, name, post) := by
  induction pre with
  | nil =>
    have hmt : matchTail (dir ++ sep :: (name ++ '#' :: 'F' :: 'E' :: '#' :: post)) =
        some (name, post) :=
      matchTail_main hsep hdir1 hdir2 hne hn1 hn2 hn3 hp
    have hfs : matchAfterFS
        ('#' :: (dir ++ sep :: (name ++ '#' :: 'F' :: 'E' :: '#' :: post))) =
        some (name, post) := matchAfterFS_hash hmt
    rw [List.nil_append, reMatch_cons_eq,
      if_pos (show List.take 3 ('#' :: 'F' :: 'S' :: '#' ::
        (dir ++ sep :: (name ++ '#' :: 'F' :: 'E' :: '#' :: post))) =
        ['#', 'F', 'S'] from rfl)]
    rw [show ('F' :: 'S' :: '#' ::
        (dir ++ sep :: (name ++ '#' :: 'F' :: 'E' :: '#' :: post))).drop 2 =
        '#' :: (dir ++ sep :: (name ++ '#' :: 'F' :: 'E' :: '#' :: post)) from rfl]
    rw [hfs]
  | cons c pre' ih =>
    have hc : c ≠ '#' := fun e => hpre (by simp [e])
    rw [List.cons_append, reMatch_cons_eq, if_neg (take3_ne_hfs hc),
      ih (fun hm => hpre (List.mem_cons_of_mem _ hm))]

theorem processMsg_build {pre dir name post : List Char} {sep : Char}
    (hsep : sepChar sep = true) (hpre : '#' ∉ pre)
    (hdir1 : '#' ∉ dir) (hdir2 : '\n' ∉ dir)
    (hne : name ≠ []) (hn1 : '#' ∉ name) (hn2 : '/' ∉ name) (hn3 : '\\' ∉ name)
    (hp : '#' ∉ post) :
    processMsg (pre ++ '#' :: 'F' :: 'S' :: '#' ::
        (dir ++ sep :: (name ++ '#' :: 'F' :: 'E' :: '#' :: post))) =
      pre ++ name ++ post := by
  rw [processMsg, reMatch_build hsep hpre hdir1 hdir2 hne hn1 hn2 hn3 hp]

theorem processMsg_no_hash {msg : List Char} (h : '#' ∉ msg) :
    processMsg msg = msg := by
  rw [processMsg, reMatch_none h]

/-! ### Helper lemmas about the worker loop and the TCP stream -/

theorem workerRun_log_cons (m : List Nat) (rest : List AsyncEvent) :
    workerRun (AsyncEvent.log m :: rest) =
      match procMsg m with
      | some out => (out :: (workerRun rest).1, (workerRun rest).2)
      | none => workerRun rest := rfl

theorem workerWrites_filterMap (msgs : List (List Nat)) :
    workerWrites (msgs.map AsyncEvent.log) = msgs.filterMap procMsg := by
  induction msgs with
  | nil => rfl
  | cons m t ih =>
    cases hp : procMsg m with
    | none =>
      simpa [workerWrites, workerRun_log_cons, hp, List.filterMap_cons] using ih
    | some out =>
      simpa [workerWrites, workerRun_log_cons, hp, List.filterMap_cons] using ih

theorem workerWrites_map_log_valid (msgs : List (List Nat))
    (h : ∀ m ∈ msgs, (utf8Decode m).isSome = true) :
    workerWrites (msgs.map AsyncEvent.log) =
      msgs.map (fun m => utf8Encode (processMsg ((utf8Decode m).getD []))) := by
  induction msgs with
  | nil => rfl
  | cons m t ih =>
    obtain ⟨cs, hcs⟩ := Option.isSome_iff_exists.mp (h m (List.mem_cons_self m t))
    have hp : procMsg m = some (utf8Encode (processMsg cs)) := by
      simp [procMsg, hcs]
    have hgd : (utf8Decode m).getD [] = cs := by simp [hcs]
    have iht := ih (fun x hx => h x (List.mem_cons_of_mem _ hx))
    simp only [List.map_cons, workerWrites, workerRun_log_cons, hp, hgd]
    simpa [workerWrites] using iht

theorem workerRun_append_terminate (msgs : List (List Nat)) :
    workerRun (msgs.map AsyncEvent.log ++ [AsyncEvent.terminate]) =
      (workerWrites (msgs.map AsyncEvent.log), true) := by
  induction msgs with
  | nil => rfl
  | cons m t ih =>
    cases hp : procMsg m <;>
      (simp only [List.map_cons, List.cons_append, workerRun_log_cons, hp]
       rw [ih]
       simp [workerWrites, workerRun_log_cons, hp])

theorem splitStream_cons_eq (b : Nat) (rest : List Nat) :
    splitStream (b :: rest) =
      (if (b :: rest).take 3 = MSG_TERMINATOR then
        ([] :: (splitStream (rest.drop 2)).1, (splitStream (rest.drop 2)).2)
      else
        match splitStream rest with
        | (m :: ms, l) => ((b :: m) :: ms, l)
        | ([], l) => ([], b :: l)) := by
  rw [splitStream]

theorem splitStream_boundary (m s : List Nat) (h : ¬ MSG_TERMINATOR <:+: m) :
    splitStream (m ++ MSG_TERMINATOR ++ s) =
      (m :: (splitStream s).1, (splitStream s).2) := by
  induction m with
  | nil =>
    rw [List.nil_append,
      show MSG_TERMINATOR ++ s = 254 :: 253 :: 255 :: s from rfl,
      splitStream_cons_eq]
    rw [if_pos (show List.take 3 (254 :: 253 :: 255 :: s) = MSG_TERMINATOR from rfl)]
    rfl
  | cons b m' ih =>
    have h' : ¬ MSG_TERMINATOR <:+: m' := fun hin => h (List.infix_cons hin)
    have hstep : (b :: m') ++ MSG_TERMINATOR ++ s = b :: (m' ++ MSG_TERMINATOR ++ s) := by
      simp
    have hcond : (b :: (m' ++ MSG_TERMINATOR ++ s)).take 3 ≠ MSG_TERMINATOR := by
      cases m' with
      | nil =>
        intro e
        rw [show ([] : List Nat) ++ MSG_TERMINATOR ++ s = 254 :: 253 :: 255 :: s
          from rfl] at e
        simp [MSG_TERMINATOR] at e
      | cons x m'' =>
        cases m'' with
        | nil =>
          intro e
          rw [show ([x] : List Nat) ++ MSG_TERMINATOR ++ s = x :: 254 :: 253 :: 255 :: s
            from rfl] at e
          simp [MSG_TERMINATOR] at e
        | cons y t =>
          intro e
          rw [show ((x :: y :: t : List Nat)) ++ MSG_TERMINATOR ++ s =
            x :: y :: (t ++ MSG_TERMINATOR ++ s) from by simp] at e
          simp [MSG_TERMINATOR] at e
          exact h ⟨[], t, by simp [MSG_TERMINATOR, e.1, e.2.1, e.2.2]⟩
    rw [hstep, splitStream_cons_eq, if_neg hcond, ih h']

/-! ### The claims -/

/-- C1: for every AsyncAppender and every sequence of messages successfully
enqueued on its channel (valid UTF-8 buffers, as produced by the Encoder),
the worker passes one buffer to the sync_write of the Transport per message,
in exactly the order in which the messages were enqueued: the i-th write is
the post-processed form of the i-th enqueued message.  The channel is the
single FIFO mpsc channel of the appender, so the event list is the enqueue
order of all producers combined. -/
theorem c1_worker_write_order (msgs : List (List Nat))
    (h : ∀ m ∈ msgs, (utf8Decode m).isSome = true) :
    workerWrites (msgs.map AsyncEvent.log) =
      msgs.map (fun m => utf8Encode (processMsg ((utf8Decode m).getD []))) :=
  workerWrites_map_log_valid msgs h

/-- Witness for c1_worker_write_order at two concrete enqueued messages. -/
theorem c1_worker_write_order_witness :
    (∀ m ∈ [[104, 105], [206, 187]], (utf8Decode m).isSome = true) ∧
    workerWrites ([[104, 105], [206, 187]].map AsyncEvent.log) =
      [[104, 105], [206, 187]].map
        (fun m => utf8Encode (processMsg ((utf8Decode m).getD []))) :=
  ⟨by decide, c1_worker_write_order [[104, 105], [206, 187]] (by decide)⟩

/-- C2 counterexample: one message is enqueued before the drop (the single
byte 255, which String::from_utf8 rejects), drop then sends the Terminate
sentinel and joins; the worker drains the channel and terminates, yet the
Transport has recorded zero writes instead of exactly one, refuting the
exactly-N-writes claim for N = 1. -/
theorem c2_drop_exact_writes_counterexample :
    (workerRun [AsyncEvent.log [255], AsyncEvent.terminate]).1.length = 0 ∧
    (workerRun [AsyncEvent.log [255], AsyncEvent.terminate]).2 = true :=
  ⟨rfl, rfl⟩

/-- C2 (amended): dropping an AsyncAppender sends the Terminate sentinel
after the previously enqueued messages and joins the worker; the worker
drains the FIFO channel, passing every enqueued valid-UTF-8 message to the
Transport before seeing the sentinel, and then terminates (the join, and
hence the drop, returns only then).  If all N enqueued messages are valid
UTF-8 — invalid buffers are skipped, see C3 — the Transport has recorded
exactly N writes by the time the drop call returns. -/
theorem c2_drop_flushes_all (msgs : List (List Nat))
    (h : ∀ m ∈ msgs, (utf8Decode m).isSome = true) :
    (workerRun (msgs.map AsyncEvent.log ++ [AsyncEvent.terminate])).1.length =
      msgs.length ∧
    (workerRun (msgs.map AsyncEvent.log ++ [AsyncEvent.terminate])).2 = true := by
  rw [workerRun_append_terminate]
  refine ⟨?_, rfl⟩
  simp [workerWrites_map_log_valid msgs h]

/-- Witness for c2_drop_flushes_all at two concrete enqueued messages. -/
theorem c2_drop_flushes_all_witness :
    (∀ m ∈ [[104], [105]], (utf8Decode m).isSome = true) ∧
    ((workerRun ([[104], [105]].map AsyncEvent.log ++
        [AsyncEvent.terminate])).1.length = 2 ∧
      (workerRun ([[104], [105]].map AsyncEvent.log ++
        [AsyncEvent.terminate])).2 = true) :=
  ⟨by decide, c2_drop_flushes_all [[104], [105]] (by decide)⟩

/-- C3 counterexample: the buffer [255] is enqueued as AsyncEvent::Log under
normal operation (no teardown), but String::from_utf8 fails on it, the
if-let in the worker has no else branch, and no sync_write happens: the
message is silently lost, refuting the claim that every enqueued message is
written. -/
theorem c3_no_silent_loss_counterexample :
    workerWrites [AsyncEvent.log [255]] = [] := rfl

/-- C3 (amended): a message enqueued on the channel as AsyncEvent::Log is
passed to the sync_write of the Transport (after the path rewrite, in
enqueue order) exactly when its bytes are valid UTF-8; a buffer rejected by
String::from_utf8 is silently skipped.  The worker loses nothing else: the
write list is precisely the in-order image of the decodable messages. -/
theorem c3_no_silent_loss_amended (msgs : List (List Nat)) :
    workerWrites (msgs.map AsyncEvent.log) = msgs.filterMap procMsg :=
  workerWrites_filterMap msgs

/-- C4 counterexample: for the single message consisting of the terminator
bytes themselves, the TCP transport writes two copies of the terminator,
and splitting the stream on the terminator yields two empty messages, not
the original message: the as-stated claim fails for payloads containing the
terminator sequence. -/
theorem c4_tcp_split_counterexample :
    splitStream (tcpStreamBytes [[254, 253, 255]]) = ([[], []], []) ∧
    ([[], []] : List (List Nat)) ≠ [[254, 253, 255]] := by
  constructor
  · simp [tcpStreamBytes, tcpSyncWrite, MSG_TERMINATOR, splitStream]
  · decide

/-- C4 (amended): for every sequence of messages none of which contains the
3-byte terminator [254, 253, 255] as a subsequence of consecutive bytes,
the byte stream produced by the TCP sync_write calls is each payload
immediately followed by the terminator, and scanning the concatenated
stream for the exact terminator sequence recovers exactly the original
messages in order with nothing left over — independently of how the stream
was fragmented into reads, since the receiver model scans the reassembled
stream. -/
theorem c4_tcp_framing (msgs : List (List Nat))
    (h : ∀ m ∈ msgs, ¬ MSG_TERMINATOR <:+: m) :
    splitStream (tcpStreamBytes msgs) = (msgs, []) := by
  induction msgs with
  | nil => simp [tcpStreamBytes, splitStream]
  | cons m t ih =>
    have hm := h m (List.mem_cons_self m t)
    have ht := ih (fun x hx => h x (List.mem_cons_of_mem _ hx))
    have hsplit : tcpStreamBytes (m :: t) = m ++ MSG_TERMINATOR ++ tcpStreamBytes t := by
      simp [tcpStreamBytes, tcpSyncWrite, List.append_assoc]
    rw [hsplit, splitStream_boundary _ _ hm, ht]

/-- Witness for c4_tcp_framing at three concrete messages. -/
theorem c4_tcp_framing_witness :
    (∀ m ∈ [[72, 105], [33], [7, 254, 253]], ¬ MSG_TERMINATOR <:+: m) ∧
    splitStream (tcpStreamBytes [[72, 105], [33], [7, 254, 253]]) =
      ([[72, 105], [33], [7, 254, 253]], []) :=
  ⟨by decide, c4_tcp_framing [[72, 105], [33], [7, 254, 253]] (by decide)⟩

/-- C5: an I/O error returned by the sync_write of the Transport inside the
worker loop is recovered locally.  For every failure pattern of the
Transport, the worker attempts exactly the same writes in the same order as
the failure-free run (each message once — no requeue, the failed message is
simply lost) and reaches the same termination state (no crash, the loop
keeps processing subsequent events): the run is independent of the write
outcomes, which the source discards. -/
theorem c5_write_error_recovered (fail : List Nat → Bool)
    (events : List AsyncEvent) :
    (workerRunFallible fail events).1.map Prod.fst = workerWrites events ∧
    (workerRunFallible fail events).2 = (workerRun events).2 := by
  induction events with
  | nil => exact ⟨rfl, rfl⟩
  | cons e rest ih =>
    cases e with
    | log m =>
      cases hp : procMsg m <;>
        simp [workerRunFallible, workerRun_log_cons, workerWrites, hp, ih.1, ih.2]
    | terminate => exact ⟨rfl, rfl⟩

/-- C6 counterexample: with the channel open (worker alive), append fails as
soon as the Encoder fails, because the question-mark operator propagates the
encoder error before the send is even attempted; so the channel being closed
is not the only user-visible error path of append. -/
theorem c6_append_error_counterexample :
    appendRecord (fun _ : Unit => Except.error ("encoder failure")) true () =
      Except.error (AppendError.encodeFailed ("encoder failure")) := rfl

/-- C6 (amended): append encodes the record via the Encoder and sends the
buffer as AsyncEvent::Log over the channel; it fails either because the
Encoder fails or because the channel is closed (the worker already gone).
When the encoding succeeds, append fails exactly when the channel is
closed, and the failure is then the channel-closed error. -/
theorem c6_append_error_paths {α : Type} (encode : α → Except String (List Nat))
    (channelOpen : Bool) (record : α) (msg : List Nat)
    (h : encode record = Except.ok msg) :
    (appendRecord encode channelOpen record = Except.ok msg ↔ channelOpen = true) ∧
    (appendRecord encode channelOpen record =
        Except.error AppendError.channelClosed ↔ channelOpen = false) := by
  unfold appendRecord
  rw [h]
  cases channelOpen <;> simp

/-- Witness for c6_append_error_paths: a concrete record with a succeeding
encoder and a closed channel. -/
theorem c6_append_error_paths_witness :
    (appendRecord (fun _ : Unit => Except.ok [7]) false () = Except.ok [7] ↔
      false = true) ∧
    (appendRecord (fun _ : Unit => Except.ok [7]) false () =
      Except.error AppendError.channelClosed ↔ false = false) :=
  c6_append_error_paths (fun _ : Unit => Except.ok [7]) false () [7] rfl

/-- C7: a log message that embeds a filesystem path between the sentinel
markers (the span #FS#, then a directory part, a final path separator and a
final component, then #FE#) is rewritten by the worker before being handed
to sync_write: the whole marked span is replaced by just the final path
component.  A message containing no marker (no hash character at all) is
written unchanged.  The side conditions state that the path has a final
component free of separators and hashes, and that the surrounding text
contains no hash character (so the markers are unambiguous); the dollar-free
condition on the component keeps the statement within the modelled literal
replacement. -/
theorem c7_path_rewrite :
    (∀ (pre dir name post : List Char) (sep : Char),
      (sep = '/' ∨ sep = '\\') →
      '#' ∉ pre → '#' ∉ dir → '\n' ∉ dir →
      name ≠ [] → '#' ∉ name → '/' ∉ name → '\\' ∉ name → '$' ∉ name →
      '#' ∉ post →
      processMsg (pre ++ '#' :: 'F' :: 'S' :: '#' ::
          (dir ++ sep :: (name ++ '#' :: 'F' :: 'E' :: '#' :: post))) =
        pre ++ name ++ post) ∧
    (∀ msg : List Char, '#' ∉ msg → processMsg msg = msg) := by
  constructor
  · intro pre dir name post sep hsep hpre hdir1 hdir2 hne hn1 hn2 hn3 _ hp
    have hs : sepChar sep = true := by
      rcases hsep with h | h <;> simp [sepChar, h]
    exact processMsg_build hs hpre hdir1 hdir2 hne hn1 hn2 hn3 hp
  · intro msg h
    exact processMsg_no_hash h

/-- Witness for c7_path_rewrite: the message "a #FS#/tmp/x.rs#FE# b" is
rewritten to "a x.rs b", and the marker-free message "hi" is unchanged. -/
theorem c7_path_rewrite_witness :
    processMsg (['a', ' '] ++ '#' :: 'F' :: 'S' :: '#' ::
        (['/', 't', 'm', 'p'] ++ '/' ::
          (['x', '.', 'r', 's'] ++ '#' :: 'F' :: 'E' :: '#' :: [' ', 'b']))) =
      ['a', ' '] ++ ['x', '.', 'r', 's'] ++ [' ', 'b'] ∧
    processMsg ['h', 'i'] = ['h', 'i'] :=
  ⟨c7_path_rewrite.1 ['a', ' '] ['/', 't', 'm', 'p'] ['x', '.', 'r', 's']
      [' ', 'b'] '/' (Or.inl rfl) (by decide) (by decide) (by decide) (by decide)
      (by decide) (by decide) (by decide) (by decide) (by decide),
    c7_path_rewrite.2 ['h', 'i'] (by decide)⟩

/-- C8 counterexample: in the revision of src/async_log.rs, building the file
appender with append = false opens the file with write+create only (no
truncation): with prior content [1,2,3,4], the first write of [9] yields
[9,2,3,4] — the pre-existing tail survives, so the content was not truncated
before the first write. -/
theorem c8_truncate_counterexample :
    (fileWrite (buildFileOld false (some [1, 2, 3, 4])) [9]).content = [9, 2, 3, 4] ∧
    (fileWrite (buildFileOld false (some [1, 2, 3, 4])) [9]).content ≠ [9] :=
  ⟨rfl, by decide⟩

/-- C8 (amended): in the revision of src/log/async_log.rs the claim holds:
append = false truncates the prior content before the first write (the first
write leaves exactly the written bytes) and append = true preserves the
prior content and appends.  In the revision of src/async_log.rs,
append = true also preserves and appends, but append = false merely
overwrites in place from the start of the file, leaving any longer
pre-existing tail behind the written bytes. -/
theorem c8_file_modes (old : Option (List Nat)) (buf : List Nat) :
    (fileWrite (buildFileNew false old) buf).content = buf ∧
    (fileWrite (buildFileNew true old) buf).content = (old.getD []) ++ buf ∧
    (fileWrite (buildFileOld true old) buf).content = (old.getD []) ++ buf ∧
    (fileWrite (buildFileOld false old) buf).content =
      buf ++ (old.getD []).drop buf.length := by
  cases old <;>
    simp [buildFileNew, buildFileOld, OpenOptions.new, OpenOptions.write,
      OpenOptions.append, OpenOptions.truncate, OpenOptions.create,
      OpenOptions.open, fileWrite]

/-- C9 counterexample: in AsyncFileAppenderCreator::deserialize of
src/log/async_log.rs, an absent append key yields false, not the documented
default true. -/
theorem c9_append_default_counterexample :
    parseAppendNew none = Except.ok false ∧
    parseAppendNew none ≠ Except.ok true :=
  ⟨rfl, by simp [parseAppendNew]⟩

/-- C9 (amended): when the optional append key is absent, the older creator
(src/async_log.rs) falls back to true but the newer one
(src/log/async_log.rs) falls back to false; in both revisions, a present
boolean value is accepted as given and any present non-boolean value is a
ConfigError saying the key must be a bool. -/
theorem c9_append_key_parsing :
    parseAppendOld none = Except.ok true ∧
    parseAppendNew none = Except.ok false ∧
    (∀ b, parseAppendNew (some (CfgValue.bool b)) = Except.ok b ∧
      parseAppendOld (some (CfgValue.bool b)) = Except.ok b) ∧
    (∀ s, parseAppendNew (some (CfgValue.str s)) =
        Except.error ("`append` must be a bool") ∧
      parseAppendOld (some (CfgValue.str s)) =
        Except.error ("`append` must be a bool")) ∧
    parseAppendNew (some CfgValue.other) =
      Except.error ("`append` must be a bool") ∧
    parseAppendOld (some CfgValue.other) =
      Except.error ("`append` must be a bool") :=
  ⟨rfl, rfl, fun _ => ⟨rfl, rfl⟩, fun _ => ⟨rfl, rfl⟩, rfl, rfl⟩

/-- C10: the TCP sync_write copies the payload bytes verbatim and appends
the terminator without escaping, so terminator-based framing recovers the
sent boundaries only for terminator-free payloads: for the payload
[1,254,253,255,2], which contains the terminator sequence, a receiver
splitting the stream on the terminator recovers the two messages [1] and
[2] instead of the single message that was sent. -/
theorem c10_unescaped_payload :
    (∀ msg : List Nat, tcpSyncWrite msg = msg ++ MSG_TERMINATOR) ∧
    MSG_TERMINATOR <:+: [1, 254, 253, 255, 2] ∧
    splitStream (tcpSyncWrite [1, 254, 253, 255, 2]) = ([[1], [2]], []) ∧
    ([[1], [2]] : List (List Nat)) ≠ [[1, 254, 253, 255, 2]] := by
  refine ⟨fun _ => rfl, by decide, ?_, by decide⟩
  simp [tcpSyncWrite, MSG_TERMINATOR, splitStream]
